import Mathlib

/-!
# Verification of the chainspark-oss extraction core

Shallow embedding of the orchestration core of the repository:
the rate limiter (`src/lib/core/rate-limiter.ts`), the error taxonomy
(`src/lib/core/errors.ts`) and the extraction pipeline
(`src/lib/core/extraction-pipeline.ts`), together with theorems checking
the natural-language specification against these definitions.

Modelling conventions:
* JavaScript timestamps (`Date.now()`) are modelled by a virtual clock
  (`Int`, milliseconds); `sleep(ms)` advances the clock by `max 0 ms`
  (a `setTimeout` with a negative delay fires immediately).
* Asynchronous operations passed to `RateLimiter.execute` are modelled by
  an oracle `op : Nat → Except ThrownError α` giving the outcome of the
  k-th invocation (1-indexed) plus a duration function for the time the
  invocation consumes.
* JavaScript strings are used as Lean `String`s; character-level
  operations (`trim`, `lastIndexOf`, `slice`) run on `List Char`.
* Extracted items are records with an optional textual `description`,
  an optional numeric `confidence` (`ℚ` models JS numbers) and an opaque
  `payload` standing for all remaining fields; `JSON.stringify` is
  modelled by `Item.serialize`.
-/

namespace ChainSpark

/-! ## Error taxonomy (`src/lib/core/errors.ts`) -/

/-- Error codes of `errors.ts` (`ErrorCode` const object). -/
inductive ErrorCode where
  | RATE_LIMIT
  | API_KEY_MISSING
  | API_KEY_INVALID
  | SCHEMA_VALIDATION_FAILED
  | PARSE_FAILED
  | TIMEOUT
  | INVALID_INPUT
  | EXTRACTOR_NOT_FOUND
  | NETWORK_ERROR
  | UNKNOWN
  deriving DecidableEq, Repr

/-- `ExtractionError` of `errors.ts`: code, message, and the metadata
fields the claims need (`retryAfter`, `attemptsMade`). -/
structure ExtractionError where
  code : ErrorCode
  message : String
  retryAfter : Option Int := none
  attemptsMade : Option Nat := none
  deriving DecidableEq, Repr

/-- A JavaScript error value thrown by an operation: either an
`ExtractionError` (incl. `RateLimitError`), or a plain `Error` that only
carries a message. -/
inductive ThrownError where
  | extractionError (e : ExtractionError)
  | plainError (message : String)
  deriving DecidableEq, Repr

/-- `error.message` of a thrown value. -/
def ThrownError.message : ThrownError → String
  | .extractionError e => e.message
  | .plainError m => m

/-- `RateLimitError` constructor of `errors.ts`: an `ExtractionError` with
code `RATE_LIMIT` and metadata `retryAfter` / `attemptsMade`. -/
def mkRateLimitError (message : String) (retryAfterMs : Int)
    (attemptsMade : Nat) : ExtractionError :=
  { code := .RATE_LIMIT, message := message,
    retryAfter := some retryAfterMs, attemptsMade := some attemptsMade }

/-- `wrapError` of `errors.ts`: pass an `ExtractionError` through, wrap
anything else as `UNKNOWN`, prefixing the optional context. -/
def wrapError (error : ThrownError) (context : Option String := none) :
    ExtractionError :=
  match error with
  | .extractionError e => e
  | .plainError msg =>
      { code := .UNKNOWN,
        message := match context with
          | some c => c ++ ": " ++ msg
          | none => msg }

/-! ## String utilities (models of JS string methods) -/

/-- `String.prototype.includes` on character lists: `needle` occurs as a
contiguous substring of `hay`. -/
def listIncludes (hay needle : List Char) : Bool :=
  needle.isPrefixOf hay ||
    match hay with
    | [] => false
    | _ :: t => listIncludes t needle

/-- `haystack.includes(needle)` for strings. -/
def strIncludes (hay needle : String) : Bool :=
  listIncludes hay.toList needle.toList

/-- ASCII lowering of one character (the fragment of
`String.prototype.toLowerCase` relevant to this repository). -/
def lowerChar (c : Char) : Char :=
  if 'A' ≤ c ∧ c ≤ 'Z' then Char.ofNat (c.toNat + 32) else c

/-- `str.toLowerCase()` for strings. -/
def strToLower (s : String) : String :=
  String.mk (s.toList.map lowerChar)

/-- JS whitespace test (ASCII fragment relevant to this repository). -/
def isWs (c : Char) : Bool :=
  c = ' ' || c = '\t' || c = '\n' || c = '\r' || c = '\x0b' || c = '\x0c'

/-- Drop trailing whitespace. -/
def trimRight : List Char → List Char
  | [] => []
  | c :: t =>
      match trimRight t with
      | [] => if isWs c then [] else [c]
      | t' => c :: t'

/-- `String.prototype.trim` on character lists: drop leading and trailing
whitespace. -/
def jsTrim (l : List Char) : List Char :=
  trimRight (l.dropWhile isWs)

/-- `str.trim()` for strings. -/
def strTrim (s : String) : String :=
  String.mk (jsTrim s.toList)

/-- Does `needle` occur in `hay` starting exactly at index `i`? -/
def occursAt (needle hay : List Char) (i : Nat) : Bool :=
  needle.isPrefixOf (hay.drop i)

/-- `hay.lastIndexOf(needle, fromIndex)`: the greatest start index
`≤ fromIndex` at which `needle` occurs, `none` when there is none
(JS returns `-1`). -/
def lastIndexOfLe (hay needle : List Char) (fromIndex : Nat) : Option Nat :=
  ((List.range (fromIndex + 1)).filter (occursAt needle hay)).getLast?

/-! ## Rate limiter (`src/lib/core/rate-limiter.ts`) -/

/-- `RateLimitConfig` of `types.ts`: minimum spacing and retry budget. -/
structure RateLimitConfig where
  delayMs : Int
  maxRetries : Nat
  deriving DecidableEq, Repr

/-- `DEFAULT_RATE_LIMIT` of `types.ts`. -/
def DEFAULT_RATE_LIMIT : RateLimitConfig :=
  { delayMs := 7000, maxRetries := 3 }

/-- `RateLimiterMetrics` of `rate-limiter.ts`. -/
structure RateLimiterMetrics where
  totalExecutions : Nat
  totalWaitTimeMs : Int
  totalRetries : Nat
  totalFailures : Nat
  lastExecutionAt : Option Int
  deriving DecidableEq, Repr

/-- The all-zero metrics record (constructor initial value, and the value
`resetMetrics` installs: `lastExecutionAt` is left absent). -/
def zeroMetrics : RateLimiterMetrics :=
  { totalExecutions := 0, totalWaitTimeMs := 0, totalRetries := 0,
    totalFailures := 0, lastExecutionAt := none }

/-- Mutable state of one `RateLimiter` instance plus the virtual clock
(`now` models `Date.now()`). -/
structure RLState where
  lastCallTime : Int
  now : Int
  metrics : RateLimiterMetrics
  deriving DecidableEq, Repr

/-- State of a freshly constructed `RateLimiter` at clock time `now`:
`lastCallTime` is initialized to `0`, metrics to zero. -/
def RLState.fresh (now : Int) : RLState :=
  { lastCallTime := 0, now := now, metrics := zeroMetrics }

/-- `RateLimiter.isRateLimitError` of `rate-limiter.ts`, applied to the
error's message string: lowercase the message and look for the throttling
patterns. -/
def isRateLimitError (message : String) : Bool :=
  let m := strToLower message
  strIncludes m "429" || strIncludes m "rate limit" ||
    strIncludes m "rate_limit" || strIncludes m "quota" ||
    strIncludes m "too many requests"

/-- `RateLimiter.waitForNextSlot`: compute
`remaining = delayMs − (now − lastCallTime)`; if positive, sleep that long
and add it to `totalWaitTimeMs`; set `lastCallTime` to the post-wait
clock; return `Math.max(0, remaining)`. -/
def waitForNextSlot (cfg : RateLimitConfig) (s : RLState) : RLState × Int :=
  let now := s.now
  let elapsed := now - s.lastCallTime
  let remaining := cfg.delayMs - elapsed
  if remaining > 0 then
    let now' := now + remaining
    ({ s with
        now := now',
        lastCallTime := now',
        metrics := { s.metrics with
          totalWaitTimeMs := s.metrics.totalWaitTimeMs + remaining } },
     max 0 remaining)
  else
    ({ s with lastCallTime := now }, max 0 remaining)

/-- Result of one run of `RateLimiter.execute`, together with ghost
observation fields that record what the loop did: the number of times the
wrapped operation was invoked, the values returned by each pre-attempt
`waitForNextSlot`, and the backoff sleeps inserted between attempts. The
ghost fields only log behaviour; they never influence it. -/
structure ExecTrace (α : Type) where
  state : RLState
  result : Except ThrownError α
  attemptsUsed : Nat
  slotWaits : List Int
  backoffs : List Int

/-- Body of `RateLimiter.execute`'s `for` loop. `attempt` is the 1-based
attempt counter; `fuel` is the number of loop iterations still allowed
(`maxRetries − attempt + 1` throughout a run), so `fuel = 0` is the
fall-through `throw lastError || new Error(...)` after the loop, reached
only when `maxRetries = 0` (then `lastError` is still `null`). -/
def executeGo {α : Type} (cfg : RateLimitConfig)
    (op : Nat → Except ThrownError α) (opDur : Nat → Nat)
    (operationName : String) :
    Nat → Nat → RLState → ExecTrace α
  | _, 0, s =>
      { state := s,
        result := .error (.plainError (operationName ++ " failed after " ++
          toString cfg.maxRetries ++ " attempts")),
        attemptsUsed := 0, slotWaits := [], backoffs := [] }
  | attempt, fuel + 1, s =>
      let ws := waitForNextSlot cfg s
      let s2 := { ws.1 with now := ws.1.now + (opDur attempt : Int) }
      match op attempt with
      | .ok v =>
          { state := { s2 with metrics := { s2.metrics with
                totalExecutions := s2.metrics.totalExecutions + 1,
                lastExecutionAt := some s2.now } },
            result := .ok v,
            attemptsUsed := 1, slotWaits := [ws.2], backoffs := [] }
      | .error e =>
          if isRateLimitError e.message ∧ attempt < cfg.maxRetries then
            let backoffMs := (2 : Int) ^ attempt * cfg.delayMs
            let s3 := { s2 with
              now := s2.now + max 0 backoffMs,
              metrics := { s2.metrics with
                totalRetries := s2.metrics.totalRetries + 1,
                totalWaitTimeMs := s2.metrics.totalWaitTimeMs + backoffMs } }
            let rest := executeGo cfg op opDur operationName (attempt + 1) fuel s3
            { rest with attemptsUsed := rest.attemptsUsed + 1,
                        slotWaits := ws.2 :: rest.slotWaits,
                        backoffs := backoffMs :: rest.backoffs }
          else
            let sF := { s2 with metrics := { s2.metrics with
              totalFailures := s2.metrics.totalFailures + 1 } }
            if isRateLimitError e.message then
              { state := sF,
                result := .error (.extractionError (mkRateLimitError
                  (operationName ++ " failed: Rate limit exceeded after " ++
                    toString attempt ++ " attempts. " ++
                    "Consider increasing delayMs or reducing request volume.")
                  (cfg.delayMs * (2 : Int) ^ attempt) attempt)),
                attemptsUsed := 1, slotWaits := [ws.2], backoffs := [] }
            else
              { state := sF,
                result := .error (.extractionError
                  (wrapError e (some operationName))),
                attemptsUsed := 1, slotWaits := [ws.2], backoffs := [] }

/-- `RateLimiter.execute`: run the retry loop from attempt 1 with a loop
budget of `maxRetries` iterations. `op k` is the outcome of the k-th
invocation of the wrapped operation and `opDur k` the (virtual) time it
consumes. -/
def execute {α : Type} (cfg : RateLimitConfig)
    (op : Nat → Except ThrownError α) (opDur : Nat → Nat)
    (operationName : String) (s : RLState) : ExecTrace α :=
  executeGo cfg op opDur operationName 1 cfg.maxRetries s

/-- `RateLimiter.resetMetrics`: set all counters back to zero
(`lastExecutionAt` is dropped). -/
def resetMetrics (s : RLState) : RLState :=
  { s with metrics := zeroMetrics }

/-- One public scheduler operation, for reasoning about arbitrary
interleavings: a bare `waitForNextSlot` call, an `execute` call, or the
passage of wall-clock time between calls. -/
inductive SchedulerOp where
  | slotOp
  | execOp (op : Nat → Except ThrownError Unit) (dur : Nat → Nat) (name : String)
  | elapseOp (d : Nat)

/-- Apply one scheduler operation to the state. -/
def runOp (cfg : RateLimitConfig) : SchedulerOp → RLState → RLState
  | .slotOp, s => (waitForNextSlot cfg s).1
  | .execOp op dur name, s => (execute cfg op dur name s).state
  | .elapseOp d, s => { s with now := s.now + (d : Int) }

/-- Apply a sequence of scheduler operations in order. -/
def runOps (cfg : RateLimitConfig) : List SchedulerOp → RLState → RLState
  | [], s => s
  | o :: t, s => runOps cfg t (runOp cfg o s)

/-! ## Extraction pipeline (`src/lib/core/extraction-pipeline.ts`) -/

/-- An extracted item: an optional textual `description`, an optional
numeric `confidence`, and an opaque `payload` standing for the remaining
schema fields. -/
structure Item where
  description : Option String
  confidence : Option ℚ
  payload : String
  deriving DecidableEq, Repr

/-- Model of `JSON.stringify(item)`: a canonical textual rendering of the
whole item. -/
def Item.serialize (i : Item) : String :=
  "[" ++ toString i.description ++ "|" ++ toString i.confidence ++ "|" ++
    i.payload ++ "]"

/-- The dedup key of `ExtractionPipeline.deduplicateItems`: the
`description` lowercased and trimmed when it exists and is textual,
otherwise the serialization of the whole item. -/
def itemKey (item : Item) : String :=
  match item.description with
  | some d => strTrim (strToLower d)
  | none => item.serialize

/-- Loop of `ExtractionPipeline.deduplicateItems`: `seen` is the set of
keys already encountered (modelled as a list). -/
def dedupGo : List String → List Item → List Item
  | _, [] => []
  | seen, item :: rest =>
      let key := itemKey item
      if seen.contains key then dedupGo seen rest
      else item :: dedupGo (key :: seen) rest

/-- `ExtractionPipeline.deduplicateItems`. -/
def deduplicateItems (items : List Item) : List Item :=
  dedupGo [] items

/-- `PageChunk` of `types.ts` (the opaque metadata bag is dropped: no
claim concerns it). -/
structure PageChunk where
  content : String
  pageNumber : Nat
  deriving DecidableEq, Repr

/-- `PageExtractionResult` of `types.ts`. -/
structure PageExtractionResult where
  items : List Item
  pageNumber : Nat
  success : Bool
  error : Option String := none
  errorCode : Option ErrorCode := none
  deriving DecidableEq, Repr

/-- `ExtractionMetrics` of `types.ts`. -/
structure ExtractionMetrics where
  totalItems : Nat
  itemsBeforeDedup : Nat
  processingTimeMs : Int
  averageConfidence : Option ℚ
  deriving DecidableEq, Repr

/-- `ExtractionResult` of `types.ts`. -/
structure ExtractionResult where
  items : List Item
  pagesProcessed : Nat
  pagesFailed : Nat
  pageResults : List PageExtractionResult
  metrics : ExtractionMetrics
  deriving DecidableEq, Repr

/-- `ExtractorConfig` of `types.ts`, restricted to the fields the core
reads: the schema name and the optional scheduler override. The schema
and prompt builder are absorbed into the generation oracle. -/
structure ExtractorConfig where
  name : String
  rateLimit : Option RateLimitConfig := none
  deriving DecidableEq, Repr

/-- `ExtractionPipeline.extractSingle`, as a function of the outcome of
the `generateObject` call: items pass through, any failure is re-thrown
wrapped with the `Extraction failed for schema "<name>"` context. -/
def extractSingleResult (extractorName : String)
    (gen : Except ThrownError (List Item)) : Except ThrownError (List Item) :=
  match gen with
  | .ok items => .ok items
  | .error e =>
      .error (.extractionError (wrapError e
        (some ("Extraction failed for schema \"" ++ extractorName ++ "\""))))

/-- The per-chunk loop of `ExtractionPipeline.extractFromPages`: for each
chunk run `rateLimiter.execute(() => extractSingle(...))`; on success
record a successful outcome and append the items; on failure record a
failed outcome carrying `wrapError(error)`'s message and code and keep
going. `gen i k` is the `generateObject` outcome for the i-th chunk's
k-th attempt (i is the 0-based loop position), `dur i k` the time that
invocation consumes. Returns the final limiter state, the per-chunk
outcomes, and the concatenated items. -/
def extractLoop (cfg : RateLimitConfig) (extractor : ExtractorConfig)
    (gen : Nat → Nat → Except ThrownError (List Item))
    (dur : Nat → Nat → Nat) :
    Nat → List PageChunk → RLState →
      RLState × List PageExtractionResult × List Item
  | _, [], s => (s, [], [])
  | i, chunk :: rest, s =>
      let tr := execute cfg (fun k => extractSingleResult extractor.name (gen i k))
        (dur i) ("Page " ++ toString chunk.pageNumber ++ " extraction") s
      match tr.result with
      | .ok items =>
          let next := extractLoop cfg extractor gen dur (i + 1) rest tr.state
          (next.1,
           { items := items, pageNumber := chunk.pageNumber,
             success := true } :: next.2.1,
           items ++ next.2.2)
      | .error err =>
          let exErr := wrapError err
          let next := extractLoop cfg extractor gen dur (i + 1) rest tr.state
          (next.1,
           { items := [], pageNumber := chunk.pageNumber, success := false,
             error := some exErr.message,
             errorCode := some exErr.code } :: next.2.1,
           next.2.2)

/-- `ExtractionPipeline.extractFromPages`: construct a fresh
`RateLimiter` from the extractor's override or the default config, run
the per-chunk loop, deduplicate the aggregate, and compute the metrics
(`averageConfidence` is computed when the deduplicated list is non-empty
and its FIRST item has a numeric `confidence`, as the mean of
`confidence || 0` over all deduplicated items). `startTime` is the clock
value at entry. -/
def extractFromPages (chunks : List PageChunk) (extractor : ExtractorConfig)
    (gen : Nat → Nat → Except ThrownError (List Item))
    (dur : Nat → Nat → Nat) (startTime : Int) : ExtractionResult :=
  let cfg := extractor.rateLimit.getD DEFAULT_RATE_LIMIT
  let run := extractLoop cfg extractor gen dur 0 chunks (RLState.fresh startTime)
  let pageResults := run.2.1
  let itemsBeforeDedup := run.2.2.length
  let allItems := deduplicateItems run.2.2
  let processingTimeMs := run.1.now - startTime
  let pagesFailed := (pageResults.filter (fun r => !r.success)).length
  let averageConfidence : Option ℚ :=
    match allItems.head? with
    | some first =>
        match first.confidence with
        | some _ =>
            some ((allItems.map (fun it => it.confidence.getD 0)).sum /
              (allItems.length : ℚ))
        | none => none
    | none => none
  { items := allItems,
    pagesProcessed := chunks.length,
    pagesFailed := pagesFailed,
    pageResults := pageResults,
    metrics :=
      { totalItems := allItems.length,
        itemsBeforeDedup := itemsBeforeDedup,
        processingTimeMs := processingTimeMs,
        averageConfidence := averageConfidence } }

/-! ## Chunker (`ExtractionPipeline.chunkBySize`) -/

/-- The `splitIndex` computation of one `chunkBySize` loop iteration:
when the remainder exceeds `maxChunkSize`, prefer the last paragraph
break (`"\n\n"`) starting at index `≤ maxChunkSize` provided it lies
strictly past `maxChunkSize * 0.5` (`2 * i > maxChunkSize` in exact
arithmetic); else the last `". "` under the same threshold (split just
after the `.`); else exactly `maxChunkSize`. When the remainder fits, the
whole remainder. -/
def splitIndexFor (maxChunkSize : Nat) (remaining : List Char) : Nat :=
  if remaining.length > maxChunkSize then
    let sentenceChoice :=
      match lastIndexOfLe remaining ['.', ' '] maxChunkSize with
      | some sb => if 2 * sb > maxChunkSize then sb + 1 else maxChunkSize
      | none => maxChunkSize
    match lastIndexOfLe remaining ['\n', '\n'] maxChunkSize with
    | some pb => if 2 * pb > maxChunkSize then pb else sentenceChoice
    | none => sentenceChoice
  else remaining.length

/-- The `while` loop of `chunkBySize`, with a fuel argument: each
iteration pushes `remaining.slice(0, splitIndex).trim()` and continues on
`remaining.slice(splitIndex).trim()`. The fuel `text.length + 1` supplied
by `chunkBySize` never runs out for `maxChunkSize ≥ 1` since the
remainder strictly shrinks. -/
def chunkBySizeGo (maxChunkSize : Nat) :
    Nat → List Char → Nat → List PageChunk
  | 0, _, _ => []
  | fuel + 1, remaining, pageNumber =>
      if remaining.length = 0 then []
      else
        let si := splitIndexFor maxChunkSize remaining
        { content := String.mk (jsTrim (remaining.take si)),
          pageNumber := pageNumber } ::
          chunkBySizeGo maxChunkSize fuel (jsTrim (remaining.drop si))
            (pageNumber + 1)

/-- `ExtractionPipeline.chunkBySize`. -/
def chunkBySize (text : String) (maxChunkSize : Nat := 4000) :
    List PageChunk :=
  chunkBySizeGo maxChunkSize (text.length + 1) text.toList 1

/-! ## Theorems -/

/-- **C8.** `waitForNextSlot` computes
`remaining = minIntervalMs − (now − lastCallTimestamp)`; when `remaining`
is positive it waits exactly that long (the clock advances by
`remaining`), adds exactly that amount to `totalWaitTimeMs` and returns
it; when `remaining` is not positive it waits 0 ms, leaves the metrics
untouched and returns 0; in both cases `lastCallTimestamp` is updated to
the post-wait time. (`waitForNextSlot` is a total function, so the
modelled promise never rejects.) -/
theorem waitForNextSlot_spec (cfg : RateLimitConfig) (s : RLState) :
    (0 < cfg.delayMs - (s.now - s.lastCallTime) →
      (waitForNextSlot cfg s).2 = cfg.delayMs - (s.now - s.lastCallTime) ∧
      (waitForNextSlot cfg s).1.now
        = s.now + (cfg.delayMs - (s.now - s.lastCallTime)) ∧
      (waitForNextSlot cfg s).1.metrics.totalWaitTimeMs
        = s.metrics.totalWaitTimeMs + (cfg.delayMs - (s.now - s.lastCallTime))) ∧
    (cfg.delayMs - (s.now - s.lastCallTime) ≤ 0 →
      (waitForNextSlot cfg s).2 = 0 ∧
      (waitForNextSlot cfg s).1.now = s.now ∧
      (waitForNextSlot cfg s).1.metrics = s.metrics) ∧
    (waitForNextSlot cfg s).1.lastCallTime = (waitForNextSlot cfg s).1.now := by
  simp only [waitForNextSlot]
  by_cases h : cfg.delayMs - (s.now - s.lastCallTime) > 0
  · rw [if_pos h]
    exact ⟨fun _ => ⟨max_eq_right h.le, rfl, rfl⟩,
      fun hle => absurd h (not_lt.mpr hle), rfl⟩
  · rw [if_neg h]
    push_neg at h
    exact ⟨fun hpos => absurd hpos (not_lt.mpr h),
      fun _ => ⟨max_eq_left h, rfl, rfl⟩, rfl⟩

/-- Witness for C8: with `delayMs = 7000`, last call at `999000` and the
clock at `1000000`, the remaining interval `6000` is positive, is waited,
accumulated and returned. -/
theorem waitForNextSlot_spec_witness :
    (waitForNextSlot ⟨7000, 3⟩
      { lastCallTime := 999000, now := 1000000, metrics := zeroMetrics }).2
        = 6000 ∧
    (waitForNextSlot ⟨7000, 3⟩
      { lastCallTime := 999000, now := 1000000, metrics := zeroMetrics
        }).1.metrics.totalWaitTimeMs = 6000 := by
  have h := (waitForNextSlot_spec ⟨7000, 3⟩
    { lastCallTime := 999000, now := 1000000, metrics := zeroMetrics }).1
    (by norm_num)
  refine ⟨by simpa using h.1, by simpa [zeroMetrics] using h.2.2⟩

/-- **C10, counterexample.** The claim says the very first call on a
fresh limiter waits 0 ms and contributes 0 to `totalWaitTimeMs`
*regardless of `minIntervalMs`*. Since `lastCallTimestamp` starts at `0`
(the epoch), a `delayMs` exceeding the epoch clock value does cause a
wait: with `delayMs = 2·10^12` and the clock at `1.7·10^12`
(a realistic 2023-era epoch timestamp), the first `waitForNextSlot`
waits `3·10^11` ms and accumulates it. -/
theorem fresh_limiter_first_wait_counterexample :
    (waitForNextSlot ⟨2000000000000, 3⟩
      (RLState.fresh 1700000000000)).2 = 300000000000 ∧
    (waitForNextSlot ⟨2000000000000, 3⟩
      (RLState.fresh 1700000000000)).1.metrics.totalWaitTimeMs
        = 300000000000 := by
  constructor <;> decide

/-- **C1, counterexample.** The claim says `metrics.averageConfidence` is
present iff *every* post-dedup item exposes a numeric `confidence`. The
code only tests `allItems[0]`: with two aggregated items, the first with
`confidence = 1` and the second without one, `averageConfidence` is still
present (items lacking the field contribute `0` to the mean). -/
theorem averageConfidence_counterexample :
    (extractFromPages [⟨"c1", 1⟩, ⟨"c2", 2⟩] ⟨"job", none⟩
        (fun i _ => if i = 0 then .ok [⟨some "a", some 1, ""⟩]
          else .ok [⟨some "b", none, ""⟩])
        (fun _ _ => 0) 2000000).items.any
        (fun it => it.confidence.isNone) = true ∧
    ((extractFromPages [⟨"c1", 1⟩, ⟨"c2", 2⟩] ⟨"job", none⟩
        (fun i _ => if i = 0 then .ok [⟨some "a", some 1, ""⟩]
          else .ok [⟨some "b", none, ""⟩])
        (fun _ _ => 0) 2000000).metrics.averageConfidence).isSome = true := by
  constructor <;> decide

/-- **C1, amended.** `metrics.averageConfidence` is present iff the
deduplicated aggregate is non-empty and its FIRST item exposes a numeric
`confidence`; when present, it equals the sum over all deduplicated items
of their `confidence` (a missing field contributing `0`) divided by the
item count. -/
theorem averageConfidence_spec (chunks : List PageChunk)
    (extractor : ExtractorConfig)
    (gen : Nat → Nat → Except ThrownError (List Item))
    (dur : Nat → Nat → Nat) (startTime : Int) :
    (((extractFromPages chunks extractor gen dur
        startTime).metrics.averageConfidence).isSome = true ↔
      ∃ first,
        (extractFromPages chunks extractor gen dur
          startTime).items.head? = some first ∧
        first.confidence.isSome = true) ∧
    ∀ v : ℚ,
      (extractFromPages chunks extractor gen dur
        startTime).metrics.averageConfidence = some v →
      v * (((extractFromPages chunks extractor gen dur
          startTime).items.length : ℚ))
        = ((extractFromPages chunks extractor gen dur startTime).items.map
            (fun it => it.confidence.getD 0)).sum := by
  simp only [extractFromPages]
  generalize deduplicateItems
    (extractLoop (extractor.rateLimit.getD DEFAULT_RATE_LIMIT) extractor gen
      dur 0 chunks (RLState.fresh startTime)).2.2 = A
  rcases hA : A.head? with _ | first
  · have hnil : A = [] := by
      cases A with
      | nil => rfl
      | cons a l => simp at hA
    subst hnil
    simp
  · rcases hc : first.confidence with _ | c
    · constructor
      · simp only [hA, hc, Option.isSome_none, Bool.false_eq_true, false_iff]
        rintro ⟨f, hf, hfc⟩
        cases hf
        rw [hc] at hfc
        simp at hfc
      · intro v hv
        simp [hc] at hv
    · have hlen : (A.length : ℚ) ≠ 0 := by
        cases A with
        | nil => simp at hA
        | cons a l =>
            simp only [List.length_cons]
            exact_mod_cast (Nat.cast_add_one_ne_zero (R := ℚ) l.length)
      constructor
      · simp only [hA, hc]
        exact ⟨fun _ => ⟨first, rfl, by simp [hc]⟩, fun _ => rfl⟩
      · intro v hv
        simp only [hc, Option.some.injEq] at hv
        rw [← hv]
        exact div_mul_cancel₀ _ hlen

/-- Witness for C1 (amended): a single chunk yielding one item with
confidence 1; the average is present and the mean identity holds. -/
theorem averageConfidence_spec_witness :
    ((extractFromPages [⟨"c1", 1⟩] ⟨"job", none⟩
        (fun _ _ => .ok [⟨some "a", some 1, ""⟩]) (fun _ _ => 0)
        2000000).metrics.averageConfidence).isSome = true ∧
    (((extractFromPages [⟨"c1", 1⟩] ⟨"job", none⟩
        (fun _ _ => .ok [⟨some "a", some 1, ""⟩]) (fun _ _ => 0)
        2000000).items.map (fun it => it.confidence.getD 0)).sum /
      (((extractFromPages [⟨"c1", 1⟩] ⟨"job", none⟩
        (fun _ _ => .ok [⟨some "a", some 1, ""⟩]) (fun _ _ => 0)
        2000000).items.length : ℚ))) *
      (((extractFromPages [⟨"c1", 1⟩] ⟨"job", none⟩
        (fun _ _ => .ok [⟨some "a", some 1, ""⟩]) (fun _ _ => 0)
        2000000).items.length : ℚ))
      = ((extractFromPages [⟨"c1", 1⟩] ⟨"job", none⟩
        (fun _ _ => .ok [⟨some "a", some 1, ""⟩]) (fun _ _ => 0)
        2000000).items.map (fun it => it.confidence.getD 0)).sum := by
  constructor
  · exact (averageConfidence_spec [⟨"c1", 1⟩] ⟨"job", none⟩
      (fun _ _ => .ok [⟨some "a", some 1, ""⟩]) (fun _ _ => 0) 2000000).1.mpr
      ⟨⟨some "a", some 1, ""⟩, rfl, rfl⟩
  · exact (averageConfidence_spec [⟨"c1", 1⟩] ⟨"job", none⟩
      (fun _ _ => .ok [⟨some "a", some 1, ""⟩]) (fun _ _ => 0) 2000000).2 _ rfl

/-- `waitForNextSlot` touches no counter other than `totalWaitTimeMs`. -/
theorem waitForNextSlot_counters (cfg : RateLimitConfig) (s : RLState) :
    (waitForNextSlot cfg s).1.metrics.totalExecutions
      = s.metrics.totalExecutions ∧
    (waitForNextSlot cfg s).1.metrics.totalRetries
      = s.metrics.totalRetries ∧
    (waitForNextSlot cfg s).1.metrics.totalFailures
      = s.metrics.totalFailures ∧
    (waitForNextSlot cfg s).1.metrics.lastExecutionAt
      = s.metrics.lastExecutionAt := by
  simp only [waitForNextSlot]
  split <;> exact ⟨rfl, rfl, rfl, rfl⟩

/-- `waitForNextSlot` adds exactly its return value to `totalWaitTimeMs`. -/
theorem waitForNextSlot_waitTime (cfg : RateLimitConfig) (s : RLState) :
    (waitForNextSlot cfg s).1.metrics.totalWaitTimeMs
      = s.metrics.totalWaitTimeMs + (waitForNextSlot cfg s).2 := by
  simp only [waitForNextSlot]
  split
  · rename_i h
    simp [max_eq_right (le_of_lt h)]
  · rename_i h
    simp [max_eq_left (not_lt.mp h)]

/-- Inside `execute`, an attempt `k` is followed by a further attempt only
when `op k` failed and its message was classified as throttling. -/
theorem executeGo_retried_throttling {α : Type} (cfg : RateLimitConfig)
    (op : Nat → Except ThrownError α) (dur : Nat → Nat) (name : String) :
    ∀ (fuel attempt : Nat) (s : RLState) (k : Nat), attempt ≤ k →
      k + 1 < attempt +
        (executeGo cfg op dur name attempt fuel s).attemptsUsed →
      ∃ e, op k = Except.error e ∧ isRateLimitError e.message = true := by
  intro fuel
  induction fuel with
  | zero =>
      intro attempt s k hak h
      simp only [executeGo] at h
      omega
  | succ n ih =>
      intro attempt s k hak h
      simp only [executeGo] at h
      split at h
      · simp only at h
        omega
      · rename_i e heq
        split at h
        · rename_i hcond
          simp only at h
          rcases Nat.lt_or_ge attempt k with hlt | hge
          · exact ih (attempt + 1) _ k hlt
              (Nat.lt_of_lt_of_eq
                (Nat.succ_lt_succ (Nat.lt_of_succ_lt_succ h))
                ((Nat.succ_add attempt _).symm))
          · have hek : attempt = k := le_antisymm hak hge
            subst hek
            exact ⟨e, heq, hcond.1⟩
        · split at h <;> simp only at h <;> omega

/-- **C5.** A failure is classified as throttling iff its message
case-insensitively contains one of `"429"`, `"rate limit"`,
`"rate_limit"`, `"quota"`, `"too many requests"`; and `execute` retries an
attempt only when its failure was classified as throttling (no other
error is retried). -/
theorem throttling_classification :
    (∀ msg : String, isRateLimitError msg = true ↔
      ∃ p ∈ (["429", "rate limit", "rate_limit", "quota",
        "too many requests"] : List String),
        strIncludes (strToLower msg) (strToLower p) = true) ∧
    ∀ {α : Type} (cfg : RateLimitConfig) (op : Nat → Except ThrownError α)
      (dur : Nat → Nat) (name : String) (s : RLState) (k : Nat),
      1 ≤ k → k < (execute cfg op dur name s).attemptsUsed →
      ∃ e, op k = Except.error e ∧ isRateLimitError e.message = true := by
  constructor
  · intro msg
    have h429 : strToLower "429" = "429" := by decide
    have hrl : strToLower "rate limit" = "rate limit" := by decide
    have hrlu : strToLower "rate_limit" = "rate_limit" := by decide
    have hq : strToLower "quota" = "quota" := by decide
    have htmr : strToLower "too many requests" = "too many requests" := by
      decide
    constructor
    · intro h
      simp only [isRateLimitError, Bool.or_eq_true] at h
      rcases h with ((((h | h) | h) | h) | h)
      · exact ⟨"429", by simp, by rw [h429]; exact h⟩
      · exact ⟨"rate limit", by simp, by rw [hrl]; exact h⟩
      · exact ⟨"rate_limit", by simp, by rw [hrlu]; exact h⟩
      · exact ⟨"quota", by simp, by rw [hq]; exact h⟩
      · exact ⟨"too many requests", by simp, by rw [htmr]; exact h⟩
    · rintro ⟨p, hp, h⟩
      fin_cases hp
      · rw [h429] at h
        simp [isRateLimitError, h]
      · rw [hrl] at h
        simp [isRateLimitError, h]
      · rw [hrlu] at h
        simp [isRateLimitError, h]
      · rw [hq] at h
        simp [isRateLimitError, h]
      · rw [htmr] at h
        simp [isRateLimitError, h]
  · intro α cfg op dur name s k hk hlt
    refine executeGo_retried_throttling cfg op dur name cfg.maxRetries 1 s k
      hk ?_
    simp only [execute] at hlt
    omega

/-- Witness for C5: `"Rate Limit hit"` contains `"rate limit"`
case-insensitively and is classified as throttling; an operation that
keeps failing with message `"429 busy"` is in fact retried, and its
retried attempt is throttling-classified. -/
theorem throttling_classification_witness :
    isRateLimitError "Rate Limit hit" = true ∧
    isRateLimitError "429 busy" = true := by
  constructor
  · exact (throttling_classification.1 "Rate Limit hit").mpr
      ⟨"rate limit", by simp, by decide⟩
  · obtain ⟨e, hop, hrl⟩ := throttling_classification.2 ⟨7000, 3⟩
      (fun _ => (.error (.plainError "429 busy") : Except ThrownError Unit))
      (fun _ => 0) "op" (RLState.fresh 1000000) 1 le_rfl (by decide)
    have he : e = .plainError "429 busy" := by
      have := hop.symm
      injection this
    rw [he] at hrl
    exact hrl

/-- **C4.** A non-throttling-classified failure on the first invocation
makes `execute` raise immediately: exactly 1 attempt regardless of
`maxRetries`, `totalFailures` incremented exactly once, `totalRetries`
and `totalExecutions` unchanged, and the raised failure is the original
typed failure passed through `wrapError` (an `ExtractionError` untouched,
anything else wrapped as `UNKNOWN`). -/
theorem nonthrottling_immediate {α : Type} (cfg : RateLimitConfig)
    (op : Nat → Except ThrownError α) (dur : Nat → Nat) (name : String)
    (s : RLState) (e : ThrownError) (hm : 1 ≤ cfg.maxRetries)
    (hop : op 1 = Except.error e)
    (hrl : isRateLimitError e.message = false) :
    (execute cfg op dur name s).attemptsUsed = 1 ∧
    (execute cfg op dur name s).result
      = Except.error (.extractionError (wrapError e (some name))) ∧
    (execute cfg op dur name s).state.metrics.totalFailures
      = s.metrics.totalFailures + 1 ∧
    (execute cfg op dur name s).state.metrics.totalRetries
      = s.metrics.totalRetries ∧
    (execute cfg op dur name s).state.metrics.totalExecutions
      = s.metrics.totalExecutions := by
  obtain ⟨mr, hmr⟩ : ∃ mr, cfg.maxRetries = mr + 1 :=
    ⟨cfg.maxRetries - 1, by omega⟩
  have hslot := waitForNextSlot_counters cfg s
  simp only [execute, hmr, executeGo, hop]
  rw [← hmr]
  split
  · rename_i hc
    rw [hrl] at hc
    exact absurd hc.1 (by simp)
  · split
    · rename_i hc
      rw [hrl] at hc
      exact absurd hc (by simp)
    · exact ⟨rfl, rfl, congrArg (fun n => n + 1) hslot.2.2.1,
        hslot.2.1, hslot.1⟩

/-- Witness for C4: an operation failing with message `"boom"` on a
limiter configured with 3 retries aborts after a single attempt with the
failure wrapped as `UNKNOWN`. -/
theorem nonthrottling_immediate_witness :
    (execute ⟨7000, 3⟩
      (fun _ => (.error (.plainError "boom") : Except ThrownError Unit))
      (fun _ => 0) "op" (RLState.fresh 1000000)).attemptsUsed = 1 ∧
    (execute ⟨7000, 3⟩
      (fun _ => (.error (.plainError "boom") : Except ThrownError Unit))
      (fun _ => 0) "op" (RLState.fresh 1000000)).result
      = Except.error (.extractionError
          (wrapError (.plainError "boom") (some "op"))) := by
  have h := nonthrottling_immediate ⟨7000, 3⟩
    (fun _ => (.error (.plainError "boom") : Except ThrownError Unit))
    (fun _ => 0) "op" (RLState.fresh 1000000) (.plainError "boom")
    (by decide) rfl (by decide)
  exact ⟨h.1, h.2.1⟩

/-- The sequence of exponential backoffs the retry loop inserts when
every attempt from `a` on fails with throttling: `2^a·d, 2^(a+1)·d, …`
(`c` entries). -/
def backoffSeq (d : Int) : Nat → Nat → List Int
  | _, 0 => []
  | a, c + 1 => (2 : Int) ^ a * d :: backoffSeq d (a + 1) c

/-- `backoffSeq` as a `List.range` map. -/
theorem backoffSeq_eq_map (d : Int) :
    ∀ (c a : Nat), backoffSeq d a c
      = (List.range c).map (fun j => (2 : Int) ^ (a + j) * d) := by
  intro c
  induction c with
  | zero => intro a; simp [backoffSeq]
  | succ m ihm =>
      intro a
      rw [backoffSeq, List.range_succ_eq_map, List.map_cons, List.map_map,
        ihm (a + 1)]
      congr 1
      refine List.map_congr_left fun j _ => ?_
      simp only [Function.comp_apply, Nat.succ_eq_add_one]
      rw [show a + 1 + j = a + (j + 1) from by omega]

/-- `execute`'s loop invariant for `totalWaitTimeMs`: the final value is
the initial one plus everything recorded as slot waits and backoffs. -/
theorem executeGo_waitTime {α : Type} (cfg : RateLimitConfig)
    (op : Nat → Except ThrownError α) (dur : Nat → Nat) (name : String) :
    ∀ (fuel attempt : Nat) (s : RLState),
      (executeGo cfg op dur name attempt fuel s).state.metrics.totalWaitTimeMs
        = s.metrics.totalWaitTimeMs
          + (executeGo cfg op dur name attempt fuel s).slotWaits.sum
          + (executeGo cfg op dur name attempt fuel s).backoffs.sum := by
  intro fuel
  induction fuel with
  | zero => intro attempt s; simp [executeGo]
  | succ n ih =>
      intro attempt s
      have hw := waitForNextSlot_waitTime cfg s
      simp only [executeGo]
      split
      · simp only [List.sum_cons, List.sum_nil]
        omega
      · split
        · simp only [List.sum_cons]
          rw [ih]
          simp only []
          omega
        · split <;> (simp only [List.sum_cons, List.sum_nil]; omega)

/-- The retry loop under all-throttling failures: attempts all remaining
budget, records the exponential backoffs, and ends in a `RateLimitError`
carrying `attemptsMade = maxRetries` and
`retryAfter = delayMs · 2^maxRetries`. -/
theorem executeGo_throttle_exhaust {α : Type} (cfg : RateLimitConfig)
    (op : Nat → Except ThrownError α) (dur : Nat → Nat) (name : String) :
    ∀ (fuel attempt : Nat) (s : RLState),
      attempt + fuel = cfg.maxRetries + 1 → 1 ≤ attempt →
      attempt ≤ cfg.maxRetries →
      (∀ k, attempt ≤ k → k ≤ cfg.maxRetries →
        ∃ e, op k = Except.error e ∧ isRateLimitError e.message = true) →
      (executeGo cfg op dur name attempt fuel s).attemptsUsed = fuel ∧
      (executeGo cfg op dur name attempt fuel s).backoffs
        = backoffSeq cfg.delayMs attempt (fuel - 1) ∧
      (∃ er, (executeGo cfg op dur name attempt fuel s).result
          = Except.error (.extractionError er) ∧
        er.code = .RATE_LIMIT ∧
        er.retryAfter = some (cfg.delayMs * (2 : Int) ^ cfg.maxRetries) ∧
        er.attemptsMade = some cfg.maxRetries) ∧
      (executeGo cfg op dur name attempt fuel s).state.metrics.totalFailures
        = s.metrics.totalFailures + 1 ∧
      (executeGo cfg op dur name attempt fuel s).state.metrics.totalRetries
        = s.metrics.totalRetries + (fuel - 1) ∧
      (executeGo cfg op dur name attempt
        fuel s).state.metrics.totalExecutions
        = s.metrics.totalExecutions := by
  intro fuel
  induction fuel with
  | zero => intro attempt s h1 h2 h3 htf; omega
  | succ n ih =>
      intro attempt s h1 h2 h3 htf
      obtain ⟨e, hop, hrl⟩ := htf attempt le_rfl h3
      have hcnt := waitForNextSlot_counters cfg s
      simp only [executeGo, hop]
      by_cases hn : n = 0
      · subst hn
        have ha : attempt = cfg.maxRetries := by omega
        subst ha
        have hcond : ¬ (isRateLimitError e.message = true ∧
            cfg.maxRetries < cfg.maxRetries) := fun hc => absurd hc.2 (by omega)
        rw [if_neg hcond, if_pos hrl]
        refine ⟨rfl, rfl, ⟨_, rfl, rfl, rfl, rfl⟩, ?_, ?_, ?_⟩
        · exact congrArg (fun x => x + 1) hcnt.2.2.1
        · simpa using hcnt.2.1
        · exact hcnt.1
      · have hlt : attempt < cfg.maxRetries := by omega
        obtain ⟨m, rfl⟩ : ∃ m, n = m + 1 := ⟨n - 1, by omega⟩
        rw [if_pos ⟨hrl, hlt⟩]
        have htf2 : ∀ k, attempt + 1 ≤ k → k ≤ cfg.maxRetries →
            ∃ e, op k = Except.error e ∧ isRateLimitError e.message = true :=
          fun k hk1 hk2 => htf k (by omega) hk2
        refine ⟨?_, ?_, ?_, ?_, ?_, ?_⟩
        · exact congrArg (fun x => x + 1)
            ((ih (attempt + 1) _ (by omega) (by omega) (by omega) htf2).1)
        · exact congrArg (fun l => (2 : Int) ^ attempt * cfg.delayMs :: l)
            ((ih (attempt + 1) _ (by omega) (by omega) (by omega) htf2).2.1)
        · exact (ih (attempt + 1) _ (by omega) (by omega) (by omega)
            htf2).2.2.1
        · exact ((ih (attempt + 1) _ (by omega) (by omega) (by omega)
            htf2).2.2.2.1).trans
            (by exact congrArg (fun x => x + 1) hcnt.2.2.1)
        · exact ((ih (attempt + 1) _ (by omega) (by omega) (by omega)
            htf2).2.2.2.2.1).trans
            (by simp only []; omega)
        · exact ((ih (attempt + 1) _ (by omega) (by omega) (by omega)
            htf2).2.2.2.2.2).trans (by exact hcnt.1)

/-- **C3.** With `maxRetries = m ≥ 1` and an operation that fails with a
throttling-classified error on every invocation, `execute` makes exactly
`m` attempts, sleeps `2^k × minIntervalMs` (recorded in
`totalWaitTimeMs`) between attempt `k` and `k+1` for each `1 ≤ k < m`,
and raises a `RateLimitError` carrying `attemptsMade = m` and the backoff
that would have followed, `minIntervalMs × 2^m`; the failure also counts
once in `totalFailures` and `m − 1` times in `totalRetries`. -/
theorem execute_throttle_exhaust {α : Type} (cfg : RateLimitConfig)
    (op : Nat → Except ThrownError α) (dur : Nat → Nat) (name : String)
    (s : RLState) (hm : 1 ≤ cfg.maxRetries)
    (htf : ∀ k, 1 ≤ k → k ≤ cfg.maxRetries →
      ∃ e, op k = Except.error e ∧ isRateLimitError e.message = true) :
    (execute cfg op dur name s).attemptsUsed = cfg.maxRetries ∧
    (execute cfg op dur name s).backoffs
      = (List.range (cfg.maxRetries - 1)).map
          (fun k => (2 : Int) ^ (k + 1) * cfg.delayMs) ∧
    (∃ er, (execute cfg op dur name s).result
        = Except.error (.extractionError er) ∧
      er.code = .RATE_LIMIT ∧
      er.retryAfter = some (cfg.delayMs * (2 : Int) ^ cfg.maxRetries) ∧
      er.attemptsMade = some cfg.maxRetries) ∧
    (execute cfg op dur name s).state.metrics.totalWaitTimeMs
      = s.metrics.totalWaitTimeMs + (execute cfg op dur name s).slotWaits.sum
        + (execute cfg op dur name s).backoffs.sum ∧
    (execute cfg op dur name s).state.metrics.totalFailures
      = s.metrics.totalFailures + 1 ∧
    (execute cfg op dur name s).state.metrics.totalRetries
      = s.metrics.totalRetries + (cfg.maxRetries - 1) := by
  have H := executeGo_throttle_exhaust cfg op dur name cfg.maxRetries 1 s
    (by omega) le_rfl hm htf
  have HB : backoffSeq cfg.delayMs 1 (cfg.maxRetries - 1)
      = (List.range (cfg.maxRetries - 1)).map
          (fun k => (2 : Int) ^ (k + 1) * cfg.delayMs) := by
    rw [backoffSeq_eq_map]
    exact List.map_congr_left fun j _ => by
      rw [show 1 + j = j + 1 from by omega]
  refine ⟨H.1, ?_, H.2.2.1, ?_, H.2.2.2.1, H.2.2.2.2.1⟩
  · exact (H.2.1).trans HB
  · exact executeGo_waitTime cfg op dur name cfg.maxRetries 1 s

/-- Witness for C3: `maxRetries = 3`, `delayMs = 7000`, every invocation
failing with `"429"`: three attempts, backoffs `[14000, 28000]`,
`totalWaitTimeMs = 42000` from a fresh limiter, and a terminal
`RATE_LIMIT` failure with `attemptsMade = 3` and
`retryAfter = 7000 · 2^3 = 56000`. -/
theorem execute_throttle_exhaust_witness :
    (execute ⟨7000, 3⟩
      (fun _ => (.error (.plainError "429") : Except ThrownError Unit))
      (fun _ => 0) "op" (RLState.fresh 1000000)).attemptsUsed = 3 ∧
    (execute ⟨7000, 3⟩
      (fun _ => (.error (.plainError "429") : Except ThrownError Unit))
      (fun _ => 0) "op" (RLState.fresh 1000000)).backoffs
      = [14000, 28000] ∧
    (execute ⟨7000, 3⟩
      (fun _ => (.error (.plainError "429") : Except ThrownError Unit))
      (fun _ => 0) "op"
      (RLState.fresh 1000000)).state.metrics.totalRetries = 2 := by
  have H := execute_throttle_exhaust ⟨7000, 3⟩
    (fun _ => (.error (.plainError "429") : Except ThrownError Unit))
    (fun _ => 0) "op" (RLState.fresh 1000000) (by decide)
    (fun k _ _ => ⟨.plainError "429", rfl, by decide⟩)
  refine ⟨H.1, ?_, ?_⟩
  · rw [H.2.1]
    decide
  · rw [H.2.2.2.2.2]
    decide

/-- Componentwise order on the four `ScheduleMetrics` counters. -/
def MetricsLe (a b : RateLimiterMetrics) : Prop :=
  a.totalExecutions ≤ b.totalExecutions ∧
  a.totalWaitTimeMs ≤ b.totalWaitTimeMs ∧
  a.totalRetries ≤ b.totalRetries ∧
  a.totalFailures ≤ b.totalFailures

/-- `MetricsLe` is transitive. -/
theorem MetricsLe.trans {a b c : RateLimiterMetrics} (h1 : MetricsLe a b)
    (h2 : MetricsLe b c) : MetricsLe a c :=
  ⟨le_trans h1.1 h2.1, le_trans h1.2.1 h2.2.1,
   le_trans h1.2.2.1 h2.2.2.1, le_trans h1.2.2.2 h2.2.2.2⟩

/-- `waitForNextSlot` returns a non-negative wait. -/
theorem waitForNextSlot_ret_nonneg (cfg : RateLimitConfig) (s : RLState) :
    0 ≤ (waitForNextSlot cfg s).2 := by
  simp only [waitForNextSlot]
  split <;> simp

/-- One `waitForNextSlot` call never decreases any counter. -/
theorem waitForNextSlot_metrics_le (cfg : RateLimitConfig) (s : RLState) :
    MetricsLe s.metrics (waitForNextSlot cfg s).1.metrics := by
  have h1 := waitForNextSlot_counters cfg s
  have h2 := waitForNextSlot_waitTime cfg s
  have hr := waitForNextSlot_ret_nonneg cfg s
  exact ⟨h1.1.symm.le, by omega, h1.2.1.symm.le, h1.2.2.1.symm.le⟩

/-- The `execute` loop never decreases any counter (for a non-negative
configured interval). -/
theorem executeGo_metrics_le {α : Type} (cfg : RateLimitConfig)
    (hd : 0 ≤ cfg.delayMs) (op : Nat → Except ThrownError α)
    (dur : Nat → Nat) (name : String) :
    ∀ (fuel attempt : Nat) (s : RLState),
      MetricsLe s.metrics
        (executeGo cfg op dur name attempt fuel s).state.metrics := by
  intro fuel
  induction fuel with
  | zero => intro attempt s; exact ⟨le_rfl, le_rfl, le_rfl, le_rfl⟩
  | succ n ih =>
      intro attempt s
      have hslot := waitForNextSlot_metrics_le cfg s
      simp only [executeGo]
      split
      · exact ⟨le_trans hslot.1 (Nat.le_succ _), hslot.2.1, hslot.2.2.1,
          hslot.2.2.2⟩
      · split
        · have hb : (0 : Int) ≤ 2 ^ attempt * cfg.delayMs :=
            mul_nonneg (pow_nonneg (by norm_num) _) hd
          refine MetricsLe.trans ?_ (ih (attempt + 1) _)
          refine ⟨hslot.1, ?_, le_trans hslot.2.2.1 (Nat.le_succ _),
            hslot.2.2.2⟩
          show s.metrics.totalWaitTimeMs
            ≤ (waitForNextSlot cfg s).1.metrics.totalWaitTimeMs
              + 2 ^ attempt * cfg.delayMs
          have h2 := hslot.2.1
          omega
        · split <;>
            exact ⟨hslot.1, hslot.2.1, hslot.2.2.1,
              le_trans hslot.2.2.2 (Nat.le_succ _)⟩

/-- A single scheduler operation never decreases any counter. -/
theorem runOp_metrics_le (cfg : RateLimitConfig) (hd : 0 ≤ cfg.delayMs)
    (o : SchedulerOp) (s : RLState) :
    MetricsLe s.metrics (runOp cfg o s).metrics := by
  cases o with
  | slotOp => exact waitForNextSlot_metrics_le cfg s
  | execOp op dur name =>
      exact executeGo_metrics_le cfg hd op dur name cfg.maxRetries 1 s
  | elapseOp d => exact ⟨le_rfl, le_rfl, le_rfl, le_rfl⟩

/-- A successful first attempt increments `totalExecutions` and leaves
`totalFailures` and `totalRetries` unchanged. -/
theorem execute_success_counters {α : Type} (cfg : RateLimitConfig)
    (op : Nat → Except ThrownError α) (dur : Nat → Nat) (name : String)
    (s : RLState) (v : α) (hm : 1 ≤ cfg.maxRetries)
    (hop : op 1 = Except.ok v) :
    (execute cfg op dur name s).state.metrics.totalExecutions
      = s.metrics.totalExecutions + 1 ∧
    (execute cfg op dur name s).state.metrics.totalFailures
      = s.metrics.totalFailures ∧
    (execute cfg op dur name s).state.metrics.totalRetries
      = s.metrics.totalRetries := by
  obtain ⟨mr, hmr⟩ : ∃ mr, cfg.maxRetries = mr + 1 :=
    ⟨cfg.maxRetries - 1, by omega⟩
  have hcnt := waitForNextSlot_counters cfg s
  simp only [execute, hmr, executeGo, hop]
  exact ⟨congrArg (fun x => x + 1) hcnt.1, hcnt.2.2.1, hcnt.2.1⟩

/-- Running only immediately-succeeding `execute` operations adds their
count to `totalExecutions` and leaves `totalFailures`/`totalRetries`
unchanged. -/
theorem runOps_success_counters (cfg : RateLimitConfig)
    (hm : 1 ≤ cfg.maxRetries) :
    ∀ (l : List SchedulerOp) (s : RLState),
      (∀ o ∈ l, ∃ f d nm, o = SchedulerOp.execOp f d nm ∧
        f 1 = Except.ok ()) →
      (runOps cfg l s).metrics.totalExecutions
        = s.metrics.totalExecutions + l.length ∧
      (runOps cfg l s).metrics.totalFailures = s.metrics.totalFailures ∧
      (runOps cfg l s).metrics.totalRetries = s.metrics.totalRetries := by
  intro l
  induction l with
  | nil => intro s _; exact ⟨rfl, rfl, rfl⟩
  | cons o t ih =>
      intro s h
      obtain ⟨f, d, nm, rfl, hok⟩ := h o (by simp)
      have hstep := execute_success_counters cfg f d nm s () hm hok
      have ht := ih (runOp cfg (SchedulerOp.execOp f d nm) s)
        (fun o ho => h o (by simp [ho]))
      simp only [runOps, runOp] at ht ⊢
      refine ⟨?_, ?_, ?_⟩
      · rw [ht.1, hstep.1]
        simp only [List.length_cons]
        omega
      · rw [ht.2.1, hstep.2.1]
      · rw [ht.2.2, hstep.2.2]

/-- **C9.** The four `ScheduleMetrics` counters are monotonically
non-decreasing across every sequence of `awaitSlot`/`execute` operations
(with a non-negative configured interval); after `N` executions that each
succeed on their first attempt, starting from a fresh limiter,
`totalExecutions = N` and `totalFailures = 0` (and `totalRetries = 0`);
and `resetMetrics` sets every counter back to zero. -/
theorem scheduleMetrics_spec :
    (∀ (cfg : RateLimitConfig), 0 ≤ cfg.delayMs →
      ∀ (ops : List SchedulerOp) (s : RLState),
        MetricsLe s.metrics (runOps cfg ops s).metrics) ∧
    (∀ (cfg : RateLimitConfig), 1 ≤ cfg.maxRetries →
      ∀ (N : Nat) (f : Nat → Nat → Except ThrownError Unit)
        (d : Nat → Nat → Nat) (nm : Nat → String) (t : Int),
        (∀ i, f i 1 = Except.ok ()) →
        (runOps cfg ((List.range N).map
            (fun i => SchedulerOp.execOp (f i) (d i) (nm i)))
          (RLState.fresh t)).metrics.totalExecutions = N ∧
        (runOps cfg ((List.range N).map
            (fun i => SchedulerOp.execOp (f i) (d i) (nm i)))
          (RLState.fresh t)).metrics.totalFailures = 0 ∧
        (runOps cfg ((List.range N).map
            (fun i => SchedulerOp.execOp (f i) (d i) (nm i)))
          (RLState.fresh t)).metrics.totalRetries = 0) ∧
    (∀ s : RLState,
      (resetMetrics s).metrics.totalExecutions = 0 ∧
      (resetMetrics s).metrics.totalWaitTimeMs = 0 ∧
      (resetMetrics s).metrics.totalRetries = 0 ∧
      (resetMetrics s).metrics.totalFailures = 0 ∧
      (resetMetrics s).metrics.lastExecutionAt = none) := by
  refine ⟨?_, ?_, ?_⟩
  · intro cfg hd ops
    induction ops with
    | nil => intro s; exact ⟨le_rfl, le_rfl, le_rfl, le_rfl⟩
    | cons o t ih =>
        intro s
        exact MetricsLe.trans (runOp_metrics_le cfg hd o s) (ih _)
  · intro cfg hm N f d nm t hok
    have h := runOps_success_counters cfg hm
      ((List.range N).map (fun i => SchedulerOp.execOp (f i) (d i) (nm i)))
      (RLState.fresh t)
      (by
        intro o ho
        simp only [List.mem_map, List.mem_range] at ho
        obtain ⟨i, _, rfl⟩ := ho
        exact ⟨f i, d i, nm i, rfl, hok i⟩)
    simpa [RLState.fresh, zeroMetrics] using h
  · intro s
    exact ⟨rfl, rfl, rfl, rfl, rfl⟩

/-- Witness for C9: a slot wait followed by nothing keeps the zero
metrics ordered; two immediately-succeeding executions from a fresh
limiter give `totalExecutions = 2`, no failures, no retries; resetting
zeroes a non-trivial metrics record. -/
theorem scheduleMetrics_spec_witness :
    MetricsLe (RLState.fresh 1000000).metrics
      (runOps ⟨7000, 3⟩ [SchedulerOp.slotOp]
        (RLState.fresh 1000000)).metrics ∧
    (runOps ⟨7000, 3⟩ ((List.range 2).map
        (fun i => SchedulerOp.execOp (fun _ => Except.ok ()) (fun _ => 0)
          (toString i)))
      (RLState.fresh 1000000)).metrics.totalExecutions = 2 ∧
    (resetMetrics
      (⟨5, 9, ⟨4, 3, 2, 1, some 7⟩⟩ : RLState)).metrics.totalExecutions
      = 0 := by
  refine ⟨?_, ?_, ?_⟩
  · exact scheduleMetrics_spec.1 ⟨7000, 3⟩ (by norm_num) [SchedulerOp.slotOp]
      (RLState.fresh 1000000)
  · exact (scheduleMetrics_spec.2.1 ⟨7000, 3⟩ (by norm_num) 2
      (fun _ => fun _ => Except.ok ()) (fun _ => fun _ => 0)
      (fun i => toString i) 1000000 (fun _ => rfl)).1
  · exact (scheduleMetrics_spec.2.2
      (⟨5, 9, ⟨4, 3, 2, 1, some 7⟩⟩ : RLState)).1

/-- The per-chunk loop yields exactly one outcome per chunk, in chunk
order; a failed outcome always carries an error message and an error
code and no items. -/
theorem extractLoop_outcomes (cfg : RateLimitConfig)
    (extractor : ExtractorConfig)
    (gen : Nat → Nat → Except ThrownError (List Item))
    (dur : Nat → Nat → Nat) :
    ∀ (chunks : List PageChunk) (i : Nat) (s : RLState),
      (extractLoop cfg extractor gen dur i chunks s).2.1.length
        = chunks.length ∧
      (∀ pr ∈ (extractLoop cfg extractor gen dur i chunks s).2.1,
        pr.success = false →
          pr.error.isSome = true ∧ pr.errorCode.isSome = true ∧
          pr.items = []) ∧
      (extractLoop cfg extractor gen dur i chunks s).2.1.map
          (fun pr => pr.pageNumber)
        = chunks.map (fun c => c.pageNumber) := by
  intro chunks
  induction chunks with
  | nil =>
      intro i s
      exact ⟨rfl, by simp [extractLoop], rfl⟩
  | cons c t ih =>
      intro i s
      simp only [extractLoop]
      split
      · refine ⟨?_, ?_, ?_⟩
        · exact congrArg (fun n => n + 1) (ih (i + 1) _).1
        · intro pr hpr
          rcases List.mem_cons.mp hpr with rfl | hmem
          · intro hfalse
            simp at hfalse
          · exact (ih (i + 1) _).2.1 pr hmem
        · exact congrArg (List.cons c.pageNumber) (ih (i + 1) _).2.2
      · refine ⟨?_, ?_, ?_⟩
        · exact congrArg (fun n => n + 1) (ih (i + 1) _).1
        · intro pr hpr
          rcases List.mem_cons.mp hpr with rfl | hmem
          · intro _
            exact ⟨rfl, rfl, rfl⟩
          · exact (ih (i + 1) _).2.1 pr hmem
        · exact congrArg (List.cons c.pageNumber) (ih (i + 1) _).2.2

/-- **C2.** A failure in one chunk's extraction call never escapes
`extractFromChunks`: the run always yields one `PerChunkOutcome` per
chunk (in order), a failed outcome carries the failure's message and
kind, and the remaining chunks are still processed. Concretely, for 3
chunks where chunk 2's generation call fails with a non-throttling error
(`"boom"`) and chunks 1 and 3 each succeed with one item:
`chunksProcessed = 3`, `chunksFailed = 1`, `items.length = 2`, and
`perChunkOutcomes[1]` is the failed outcome with the wrapped message and
kind `UNKNOWN`. -/
theorem errorIsolation_spec :
    (∀ (chunks : List PageChunk) (extractor : ExtractorConfig)
      (gen : Nat → Nat → Except ThrownError (List Item))
      (dur : Nat → Nat → Nat) (t : Int),
      (extractFromPages chunks extractor gen dur t).pagesProcessed
        = chunks.length ∧
      (extractFromPages chunks extractor gen dur t).pageResults.length
        = chunks.length ∧
      (extractFromPages chunks extractor gen dur t).pageResults.map
          (fun pr => pr.pageNumber)
        = chunks.map (fun c => c.pageNumber) ∧
      ∀ pr ∈ (extractFromPages chunks extractor gen dur t).pageResults,
        pr.success = false →
          pr.error.isSome = true ∧ pr.errorCode.isSome = true ∧
          pr.items = []) ∧
    (extractFromPages [⟨"c1", 1⟩, ⟨"c2", 2⟩, ⟨"c3", 3⟩] ⟨"job", none⟩
      (fun i _ => if i = 1 then .error (.plainError "boom")
        else .ok [⟨some ("item" ++ toString i), none, ""⟩])
      (fun _ _ => 0) 2000000).pagesProcessed = 3 ∧
    (extractFromPages [⟨"c1", 1⟩, ⟨"c2", 2⟩, ⟨"c3", 3⟩] ⟨"job", none⟩
      (fun i _ => if i = 1 then .error (.plainError "boom")
        else .ok [⟨some ("item" ++ toString i), none, ""⟩])
      (fun _ _ => 0) 2000000).pagesFailed = 1 ∧
    (extractFromPages [⟨"c1", 1⟩, ⟨"c2", 2⟩, ⟨"c3", 3⟩] ⟨"job", none⟩
      (fun i _ => if i = 1 then .error (.plainError "boom")
        else .ok [⟨some ("item" ++ toString i), none, ""⟩])
      (fun _ _ => 0) 2000000).items.length = 2 ∧
    (extractFromPages [⟨"c1", 1⟩, ⟨"c2", 2⟩, ⟨"c3", 3⟩] ⟨"job", none⟩
      (fun i _ => if i = 1 then .error (.plainError "boom")
        else .ok [⟨some ("item" ++ toString i), none, ""⟩])
      (fun _ _ => 0) 2000000).pageResults[1]?
      = some (⟨[], 2, false,
          some "Extraction failed for schema \"job\": boom",
          some ErrorCode.UNKNOWN⟩ : PageExtractionResult) := by
  refine ⟨?_, by decide, by decide, by decide, by decide⟩
  intro chunks extractor gen dur t
  have H := extractLoop_outcomes (extractor.rateLimit.getD DEFAULT_RATE_LIMIT)
    extractor gen dur chunks 0 (RLState.fresh t)
  exact ⟨rfl, H.1, H.2.2, H.2.1⟩

/-- Witness for C2: a one-chunk run processes exactly that chunk. -/
theorem errorIsolation_spec_witness :
    (extractFromPages [⟨"x", 1⟩] ⟨"job", none⟩ (fun _ _ => .ok [])
      (fun _ _ => 0) 0).pagesProcessed = 1 :=
  (errorIsolation_spec.1 [⟨"x", 1⟩] ⟨"job", none⟩ (fun _ _ => .ok [])
    (fun _ _ => 0) 0).1

/-- The deduplication rule as the spec words it: items are kept in
first-seen order; after keeping an item, every later item with the same
dedup key is dropped. -/
def dedupFirstSeen : List Item → List Item
  | [] => []
  | x :: xs =>
      x :: dedupFirstSeen (xs.filter fun y => !(itemKey y == itemKey x))
termination_by l => l.length
decreasing_by
  simp only [List.length_cons]
  exact Nat.lt_succ_of_le (List.length_filter_le _ _)

/-- Unfolding lemma for `dedupFirstSeen` on `[]`. -/
theorem dedupFirstSeen_nil : dedupFirstSeen [] = [] := by
  rw [dedupFirstSeen.eq_def]

/-- Unfolding lemma for `dedupFirstSeen` on a cons. -/
theorem dedupFirstSeen_cons (x : Item) (xs : List Item) :
    dedupFirstSeen (x :: xs)
      = x :: dedupFirstSeen (xs.filter fun y => !(itemKey y == itemKey x)) := by
  rw [dedupFirstSeen.eq_def]

/-- The code's dedup loop equals the spec's first-seen filter, once the
items whose keys are already in `seen` are removed. -/
theorem dedupGo_eq (l : List Item) : ∀ seen : List String,
    dedupGo seen l
      = dedupFirstSeen (l.filter (fun y => !(seen.contains (itemKey y)))) := by
  induction l with
  | nil =>
      intro seen
      simp [dedupGo, dedupFirstSeen_nil]
  | cons x xs ih =>
      intro seen
      by_cases hc : seen.contains (itemKey x)
      · have hcf : (!(seen.contains (itemKey x))) = false := by rw [hc]; rfl
        rw [List.filter_cons, if_neg (by rw [hcf]; exact Bool.false_ne_true)]
        simp only [dedupGo]
        rw [if_pos hc]
        exact ih seen
      · have hc' : seen.contains (itemKey x) = false := by
          cases h : seen.contains (itemKey x)
          · rfl
          · exact absurd h hc
        have hcf : (!(seen.contains (itemKey x))) = true := by rw [hc']; rfl
        rw [List.filter_cons, if_pos hcf]
        simp only [dedupGo]
        rw [if_neg (by rw [hc']; exact Bool.false_ne_true)]
        rw [dedupFirstSeen_cons]
        congr 1
        rw [ih (itemKey x :: seen)]
        congr 1
        rw [List.filter_filter]
        refine List.filter_congr fun y _ => ?_
        simp only [List.contains_cons, Bool.not_or]

/-- The dedup loop never lengthens the list. -/
theorem dedupGo_length (l : List Item) : ∀ seen : List String,
    (dedupGo seen l).length ≤ l.length := by
  induction l with
  | nil => intro seen; exact le_rfl
  | cons x xs ih =>
      intro seen
      simp only [dedupGo]
      split
      · exact le_trans (ih seen) (Nat.le_succ _)
      · simpa using Nat.succ_le_succ (ih (itemKey x :: seen))

/-- **C6.** Deduplication keys each item by its `description` lowercased
and trimmed when that field exists and is textual, and otherwise by a
canonical serialization of the whole item (this is `itemKey`); items are
kept in first-seen order with later duplicates dropped (the code's loop
equals the spec's first-seen filter); the deduplicated list is never
longer than the input, so `metrics.itemsBeforeDedup ≥ items.length` in
every pipeline run. Concretely, two chunks carrying descriptions
`"Shared ID"` and `" shared id "` yield exactly 1 item — the first-seen
one — with `itemsBeforeDedup = 2`. -/
theorem dedup_spec :
    (∀ items : List Item, deduplicateItems items = dedupFirstSeen items) ∧
    (∀ items : List Item,
      (deduplicateItems items).length ≤ items.length) ∧
    (∀ (chunks : List PageChunk) (extractor : ExtractorConfig)
      (gen : Nat → Nat → Except ThrownError (List Item))
      (dur : Nat → Nat → Nat) (t : Int),
      (extractFromPages chunks extractor gen dur t).items.length
        ≤ (extractFromPages chunks extractor gen dur
            t).metrics.itemsBeforeDedup) ∧
    (extractFromPages [⟨"c1", 1⟩, ⟨"c2", 2⟩] ⟨"job", none⟩
      (fun i _ => if i = 0 then .ok [⟨some "Shared ID", none, "first"⟩]
        else .ok [⟨some " shared id ", none, "second"⟩])
      (fun _ _ => 0) 2000000).items
      = [⟨some "Shared ID", none, "first"⟩] ∧
    (extractFromPages [⟨"c1", 1⟩, ⟨"c2", 2⟩] ⟨"job", none⟩
      (fun i _ => if i = 0 then .ok [⟨some "Shared ID", none, "first"⟩]
        else .ok [⟨some " shared id ", none, "second"⟩])
      (fun _ _ => 0) 2000000).metrics.itemsBeforeDedup = 2 := by
  refine ⟨?_, ?_, ?_, by decide, by decide⟩
  · intro items
    rw [deduplicateItems, dedupGo_eq]
    congr 1
    simp
  · intro items
    exact dedupGo_length items []
  · intro chunks extractor gen dur t
    exact dedupGo_length _ []

/-- **C10, amended.** On a freshly constructed limiter (the pipeline
builds one per run via `RLState.fresh`), the first `waitForNextSlot` and
the first slot wait inside `execute` are 0 and contribute nothing to
`totalWaitTimeMs`, *provided* `delayMs` does not exceed the current epoch
clock value (always true for realistic intervals); the spacing guarantee
therefore does not carry across orchestration runs. -/
theorem fresh_limiter_first_wait (cfg : RateLimitConfig) (now : Int)
    (h : cfg.delayMs ≤ now) :
    (waitForNextSlot cfg (RLState.fresh now)).2 = 0 ∧
    (waitForNextSlot cfg (RLState.fresh now)).1.metrics.totalWaitTimeMs
      = 0 ∧
    ∀ (op : Nat → Except ThrownError Unit) (dur : Nat → Nat) (name : String),
      1 ≤ cfg.maxRetries →
      (execute cfg op dur name (RLState.fresh now)).slotWaits.head?
        = some 0 := by
  have hrem : cfg.delayMs - (RLState.fresh now).now ≤ 0 := by
    simp only [RLState.fresh]
    omega
  have hcond :
      ¬ (cfg.delayMs - ((RLState.fresh now).now -
        (RLState.fresh now).lastCallTime) > 0) := by
    simp only [RLState.fresh]
    omega
  refine ⟨?_, ?_, ?_⟩
  · unfold waitForNextSlot
    simp only [if_neg hcond]
    simp only [RLState.fresh]
    omega
  · unfold waitForNextSlot
    simp only [if_neg hcond]
    simp [RLState.fresh, zeroMetrics]
  · intro op dur name hmr
    obtain ⟨mr, hmr'⟩ : ∃ mr, cfg.maxRetries = mr + 1 :=
      ⟨cfg.maxRetries - 1, by omega⟩
    unfold execute
    rw [hmr']
    unfold executeGo
    have hws : (waitForNextSlot cfg (RLState.fresh now)).2 = 0 := by
      unfold waitForNextSlot
      simp only [if_neg hcond]
      simp only [RLState.fresh]
      omega
    rcases hop : op 1 with e | v
    · simp only [hop]
      split
      · simp [hws]
      · split <;> simp [hws]
    · simp only [hop]
      simp [hws]

/-- Witness for C10 (amended): `delayMs = 7000` with the clock at
`1000000`: the first call on a fresh limiter waits 0 and accumulates
nothing. -/
theorem fresh_limiter_first_wait_witness :
    (waitForNextSlot ⟨7000, 3⟩ (RLState.fresh 1000000)).2 = 0 ∧
    (waitForNextSlot ⟨7000, 3⟩
      (RLState.fresh 1000000)).1.metrics.totalWaitTimeMs = 0 := by
  have h := fresh_limiter_first_wait ⟨7000, 3⟩ 1000000 (by norm_num)
  exact ⟨h.1, h.2.1⟩

/-! ### Chunker lemmas -/

/-- The last element given by `getLast?` is a member of the list. -/
theorem mem_of_getLast? {α : Type} :
    ∀ {l : List α} {a : α}, l.getLast? = some a → a ∈ l := by
  intro l
  induction l with
  | nil => intro a h; cases h
  | cons x t ih =>
      intro a h
      cases t with
      | nil =>
          simp only [List.getLast?_singleton, Option.some.injEq] at h
          simp [h]
      | cons y u =>
          rw [List.getLast?_cons_cons] at h
          exact List.mem_cons_of_mem x (ih h)

/-- What a successful `lastIndexOf` means: the needle occurs at the
returned index, and the index is at most `fromIndex`. -/
theorem lastIndexOfLe_sound (hay needle : List Char) (fromIndex i : Nat)
    (h : lastIndexOfLe hay needle fromIndex = some i) :
    occursAt needle hay i = true ∧ i ≤ fromIndex := by
  have hmem := mem_of_getLast? h
  have hmem2 := List.mem_filter.mp hmem
  refine ⟨hmem2.2, ?_⟩
  have := List.mem_range.mp hmem2.1
  omega

/-- `splitIndexFor` on a too-long remainder is bounded by
`maxChunkSize + 1`. -/
theorem splitIndexFor_le (maxChunkSize : Nat) (remaining : List Char)
    (hlen : remaining.length > maxChunkSize) :
    splitIndexFor maxChunkSize remaining ≤ maxChunkSize + 1 := by
  simp only [splitIndexFor, if_pos hlen]
  split
  · rename_i pb hp
    have hpb := (lastIndexOfLe_sound _ _ _ _ hp).2
    split
    · omega
    · split
      · rename_i sb hs
        have hsb := (lastIndexOfLe_sound _ _ _ _ hs).2
        split
        · exact Nat.succ_le_succ hsb
        · exact Nat.le_succ _
      · exact Nat.le_succ _
  · split
    · rename_i sb hs
      have hsb := (lastIndexOfLe_sound _ _ _ _ hs).2
      split
      · exact Nat.succ_le_succ hsb
      · exact Nat.le_succ _
    · exact Nat.le_succ _

/-- `splitIndexFor` on a short-enough remainder is the whole remainder. -/
theorem splitIndexFor_short (maxChunkSize : Nat) (remaining : List Char)
    (hlen : ¬ remaining.length > maxChunkSize) :
    splitIndexFor maxChunkSize remaining = remaining.length := by
  simp only [splitIndexFor, if_neg hlen]

/-- `splitIndexFor` is positive whenever the remainder is non-empty and
`maxChunkSize ≥ 1` (this is what makes the loop progress). -/
theorem splitIndexFor_pos (maxChunkSize : Nat) (remaining : List Char)
    (hm : 1 ≤ maxChunkSize) (hne : remaining ≠ []) :
    1 ≤ splitIndexFor maxChunkSize remaining := by
  by_cases hlen : remaining.length > maxChunkSize
  · simp only [splitIndexFor, if_pos hlen]
    split
    · split
      · omega
      · split
        · split
          · exact Nat.succ_le_succ (Nat.zero_le _)
          · exact hm
        · exact hm
    · split
      · split
        · exact Nat.succ_le_succ (Nat.zero_le _)
        · exact hm
      · exact hm
  · rw [splitIndexFor_short maxChunkSize remaining hlen]
    have : remaining.length ≠ 0 := fun h => hne (List.eq_nil_of_length_eq_zero h)
    omega

/-- `trimRight` never lengthens a list. -/
theorem trimRight_length_le : ∀ l : List Char, (trimRight l).length ≤ l.length := by
  intro l
  induction l with
  | nil => exact le_rfl
  | cons c t ih =>
      simp only [trimRight]
      split
      · split <;> simp
      · simp only [List.length_cons]
        omega

/-- `dropWhile` never lengthens a list. -/
theorem dropWhile_length_le (p : Char → Bool) :
    ∀ l : List Char, (l.dropWhile p).length ≤ l.length := by
  intro l
  induction l with
  | nil => exact le_rfl
  | cons c t ih =>
      rw [List.dropWhile_cons]
      split
      · exact le_trans ih (Nat.le_succ _)
      · exact le_rfl

/-- `jsTrim` never lengthens a list. -/
theorem jsTrim_length_le (l : List Char) : (jsTrim l).length ≤ l.length :=
  le_trans (trimRight_length_le _) (dropWhile_length_le _ _)

/-- `trimRight` of a list whose head is not whitespace is non-empty. -/
theorem trimRight_cons_ne_nil (c : Char) (t : List Char)
    (hc : isWs c = false) : trimRight (c :: t) ≠ [] := by
  simp only [trimRight]
  split
  · rw [hc]
    simp
  · simp

/-- A non-empty `trimRight` keeps the input's head. -/
theorem trimRight_head : ∀ (l : List Char) (c : Char) (t : List Char),
    trimRight l = c :: t → ∃ u, l = c :: u := by
  intro l c t h
  cases l with
  | nil => cases h
  | cons a b =>
      simp only [trimRight] at h
      split at h
      · split at h
        · cases h
        · obtain ⟨h1, _⟩ := List.cons.injEq .. ▸ h
          exact ⟨b, by rw [List.cons.injEq] at h; rw [h.1]⟩
      · rw [List.cons.injEq] at h
        exact ⟨b, by rw [h.1]⟩

/-- The head surviving `dropWhile isWs` is not whitespace. -/
theorem dropWhile_head_not_ws :
    ∀ (l : List Char) (c : Char) (t : List Char),
      l.dropWhile isWs = c :: t → isWs c = false := by
  intro l
  induction l with
  | nil => intro c t h; cases h
  | cons a b ih =>
      intro c t h
      rw [List.dropWhile_cons] at h
      split at h
      · exact ih c t h
      · rename_i ha
        rw [List.cons.injEq] at h
        rw [← h.1]
        cases hb : isWs a
        · rfl
        · exact absurd hb ha

/-- A non-empty `jsTrim` starts with a non-whitespace character. -/
theorem jsTrim_head_not_ws (l : List Char) (c : Char) (t : List Char)
    (h : jsTrim l = c :: t) : isWs c = false := by
  obtain ⟨u, hu⟩ := trimRight_head (l.dropWhile isWs) c t h
  exact dropWhile_head_not_ws l c u hu

/-- `jsTrim` of a list with a non-whitespace head is non-empty. -/
theorem jsTrim_cons_ne_nil (c : Char) (t : List Char)
    (hc : isWs c = false) : jsTrim (c :: t) ≠ [] := by
  unfold jsTrim
  rw [List.dropWhile_cons]
  rw [hc]
  simp only [Bool.false_eq_true, if_false]
  exact trimRight_cons_ne_nil c t hc

/-- Every chunk the loop pushes has (trimmed) content of length at most
`maxChunkSize + 1`. -/
theorem chunkBySizeGo_length_le (maxChunkSize : Nat) :
    ∀ (fuel : Nat) (remaining : List Char) (pn : Nat),
      ∀ ch ∈ chunkBySizeGo maxChunkSize fuel remaining pn,
        ch.content.length ≤ maxChunkSize + 1 := by
  intro fuel
  induction fuel with
  | zero => intro remaining pn ch hch; simp [chunkBySizeGo] at hch
  | succ n ih =>
      intro remaining pn ch hch
      simp only [chunkBySizeGo] at hch
      by_cases hlen0 : remaining.length = 0
      · rw [if_pos hlen0] at hch
        simp at hch
      · rw [if_neg hlen0] at hch
        rcases List.mem_cons.mp hch with rfl | hmem
        · show (jsTrim (remaining.take
            (splitIndexFor maxChunkSize remaining))).length ≤ maxChunkSize + 1
          have h2 := jsTrim_length_le
            (remaining.take (splitIndexFor maxChunkSize remaining))
          have h3 : (remaining.take
              (splitIndexFor maxChunkSize remaining)).length
              ≤ splitIndexFor maxChunkSize remaining := by
            rw [List.length_take]
            exact min_le_left _ _
          by_cases hlen : remaining.length > maxChunkSize
          · have h1 := splitIndexFor_le maxChunkSize remaining hlen
            omega
          · have h1 := splitIndexFor_short maxChunkSize remaining hlen
            omega
        · exact ih _ _ ch hmem

/-- Every chunk the loop pushes is non-empty after trimming, provided the
remainder starts with a non-whitespace character (which the loop
re-establishes by trimming between iterations). -/
theorem chunkBySizeGo_nonempty (maxChunkSize : Nat) (hm : 1 ≤ maxChunkSize) :
    ∀ (fuel : Nat) (remaining : List Char) (pn : Nat),
      (∀ c t, remaining = c :: t → isWs c = false) →
      ∀ ch ∈ chunkBySizeGo maxChunkSize fuel remaining pn,
        ch.content ≠ "" := by
  intro fuel
  induction fuel with
  | zero => intro remaining pn hh ch hch; simp [chunkBySizeGo] at hch
  | succ n ih =>
      intro remaining pn hh ch hch
      simp only [chunkBySizeGo] at hch
      by_cases hlen0 : remaining.length = 0
      · rw [if_pos hlen0] at hch
        simp at hch
      · rw [if_neg hlen0] at hch
        rcases List.mem_cons.mp hch with rfl | hmem
        · obtain ⟨c, t, rfl⟩ : ∃ c t, remaining = c :: t := by
            cases remaining with
            | nil => simp at hlen0
            | cons a b => exact ⟨a, b, rfl⟩
          have hc := hh c t rfl
          have hsi := splitIndexFor_pos maxChunkSize (c :: t) hm (by simp)
          obtain ⟨k, hk⟩ : ∃ k, splitIndexFor maxChunkSize (c :: t) = k + 1 :=
            ⟨splitIndexFor maxChunkSize (c :: t) - 1, by omega⟩
          intro hempty
          have h2 : jsTrim ((c :: t).take
              (splitIndexFor maxChunkSize (c :: t))) = [] :=
            congrArg String.data hempty
          rw [hk, List.take_succ_cons] at h2
          exact jsTrim_cons_ne_nil c (t.take k) hc h2
        · exact ih _ _ (fun c t h => jsTrim_head_not_ws _ c t h) ch hmem

/-- **C7, counterexample.** The claim says every chunk produced by
`chunkBySize` has content length at most `maxSize`, and that every
produced chunk is non-empty after trimming. Both fail:
`chunkBySize "abcd. x" 4` takes the sentence break whose `". "` match
begins exactly at index 4, producing the chunk `"abcd."` of length
5 > 4; and `chunkBySize "     " 4` (all-whitespace input) produces one
chunk whose trimmed content is empty. -/
theorem chunkBySize_counterexample :
    (chunkBySize "abcd. x" 4).map (fun c => c.content) = ["abcd.", "x"] ∧
    (chunkBySize "abcd. x" 4).map (fun c => c.content.length) = [5, 1] ∧
    chunkBySize "     " 4 = [⟨"", 1⟩] := by
  refine ⟨by decide, by decide, by decide⟩

/-- Case analysis of the split-index choice on a too-long remainder:
either a paragraph break strictly past the 50% threshold, or one past a
sentence-terminator match strictly past the threshold (the match begins
at most at `maxChunkSize`), or exactly `maxChunkSize`. -/
theorem splitIndexFor_cases (maxChunkSize : Nat) (remaining : List Char)
    (hlen : remaining.length > maxChunkSize) :
    (occursAt ['\n', '\n'] remaining
        (splitIndexFor maxChunkSize remaining) = true ∧
      2 * splitIndexFor maxChunkSize remaining > maxChunkSize) ∨
    (1 ≤ splitIndexFor maxChunkSize remaining ∧
      occursAt ['.', ' '] remaining
        (splitIndexFor maxChunkSize remaining - 1) = true ∧
      2 * (splitIndexFor maxChunkSize remaining - 1) > maxChunkSize ∧
      splitIndexFor maxChunkSize remaining - 1 ≤ maxChunkSize) ∨
    splitIndexFor maxChunkSize remaining = maxChunkSize := by
  rcases hp : lastIndexOfLe remaining ['\n', '\n'] maxChunkSize with _ | pb
  · rcases hs : lastIndexOfLe remaining ['.', ' '] maxChunkSize with _ | sb
    · exact Or.inr (Or.inr (by simp [splitIndexFor, if_pos hlen, hp, hs]))
    · have hso := lastIndexOfLe_sound _ _ _ _ hs
      by_cases hc : 2 * sb > maxChunkSize
      · have hv : splitIndexFor maxChunkSize remaining = sb + 1 := by
          simp [splitIndexFor, if_pos hlen, hp, hs, hc]
        rw [hv]
        exact Or.inr (Or.inl ⟨Nat.succ_le_succ (Nat.zero_le _),
          by simpa using hso.1, by simpa using hc, by simpa using hso.2⟩)
      · exact Or.inr (Or.inr
          (by simp [splitIndexFor, if_pos hlen, hp, hs, hc]))
  · have hpo := lastIndexOfLe_sound _ _ _ _ hp
    by_cases hcp : 2 * pb > maxChunkSize
    · have hv : splitIndexFor maxChunkSize remaining = pb := by
        simp [splitIndexFor, if_pos hlen, hp, hcp]
      rw [hv]
      exact Or.inl ⟨hpo.1, hcp⟩
    · rcases hs : lastIndexOfLe remaining ['.', ' '] maxChunkSize with _ | sb
      · exact Or.inr (Or.inr
          (by simp [splitIndexFor, if_pos hlen, hp, hcp, hs]))
      · have hso := lastIndexOfLe_sound _ _ _ _ hs
        by_cases hc : 2 * sb > maxChunkSize
        · have hv : splitIndexFor maxChunkSize remaining = sb + 1 := by
            simp [splitIndexFor, if_pos hlen, hp, hcp, hs, hc]
          rw [hv]
          exact Or.inr (Or.inl ⟨Nat.succ_le_succ (Nat.zero_le _),
            by simpa using hso.1, by simpa using hc, by simpa using hso.2⟩)
        · exact Or.inr (Or.inr
            (by simp [splitIndexFor, if_pos hlen, hp, hcp, hs, hc]))

/-- **C7, amended.** For `maxSize ≥ 1`: every chunk produced by
`chunkBySize` has content length at most `maxSize + 1` (the sole way to
exceed `maxSize` is a sentence-terminator match beginning exactly at
index `maxSize`); on a too-long remainder the split index is a paragraph
break strictly past the 50% threshold, else one past a
sentence-terminator match strictly past that threshold, else exactly
`maxSize`; every produced chunk after the first is non-empty after
trimming, and when the input begins with a non-whitespace character
every produced chunk is non-empty (an all-whitespace leading window can
make the first chunk empty). -/
theorem chunkBySize_spec (text : String) (maxChunkSize : Nat)
    (hm : 1 ≤ maxChunkSize) :
    (∀ ch ∈ chunkBySize text maxChunkSize,
      ch.content.length ≤ maxChunkSize + 1) ∧
    (∀ remaining : List Char, remaining.length > maxChunkSize →
      (occursAt ['\n', '\n'] remaining
          (splitIndexFor maxChunkSize remaining) = true ∧
        2 * splitIndexFor maxChunkSize remaining > maxChunkSize) ∨
      (1 ≤ splitIndexFor maxChunkSize remaining ∧
        occursAt ['.', ' '] remaining
          (splitIndexFor maxChunkSize remaining - 1) = true ∧
        2 * (splitIndexFor maxChunkSize remaining - 1) > maxChunkSize ∧
        splitIndexFor maxChunkSize remaining - 1 ≤ maxChunkSize) ∨
      splitIndexFor maxChunkSize remaining = maxChunkSize) ∧
    (∀ ch ∈ (chunkBySize text maxChunkSize).drop 1, ch.content ≠ "") ∧
    ((∀ c t, text.toList = c :: t → isWs c = false) →
      ∀ ch ∈ chunkBySize text maxChunkSize, ch.content ≠ "") := by
  refine ⟨?_, ?_, ?_, ?_⟩
  · exact chunkBySizeGo_length_le maxChunkSize (text.length + 1) text.toList 1
  · intro remaining hlen
    exact splitIndexFor_cases maxChunkSize remaining hlen
  · cases htl : text.toList with
    | nil =>
        have hempty : chunkBySize text maxChunkSize = [] := by
          simp only [chunkBySize, htl, chunkBySizeGo]
          simp
        rw [hempty]
        simp
    | cons c t =>
        have hstep : chunkBySize text maxChunkSize
            = { content := String.mk (jsTrim ((c :: t).take
                  (splitIndexFor maxChunkSize (c :: t)))),
                pageNumber := 1 } ::
              chunkBySizeGo maxChunkSize text.length
                (jsTrim ((c :: t).drop
                  (splitIndexFor maxChunkSize (c :: t)))) 2 := by
          simp only [chunkBySize, htl, chunkBySizeGo]
          rw [if_neg (by simp)]
        rw [hstep]
        simp only [List.drop_succ_cons, List.drop_zero]
        exact chunkBySizeGo_nonempty maxChunkSize hm text.length
          (jsTrim ((c :: t).drop (splitIndexFor maxChunkSize (c :: t)))) 2
          (fun c' t' h => jsTrim_head_not_ws _ c' t' h)
  · intro hstart
    refine chunkBySizeGo_nonempty maxChunkSize hm (text.length + 1)
      text.toList 1 ?_
    exact hstart

/-- Witness for C7 (amended): `chunkBySize "ab" 5` produces the single
chunk `"ab"`, whose length is within the bound and which is
non-empty. -/
theorem chunkBySize_spec_witness :
    (⟨"ab", 1⟩ : PageChunk).content.length ≤ 5 + 1 ∧
    (⟨"ab", 1⟩ : PageChunk).content ≠ "" := by
  have H := chunkBySize_spec "ab" 5 (by norm_num)
  have hmem : (⟨"ab", 1⟩ : PageChunk) ∈ chunkBySize "ab" 5 := by decide
  exact ⟨H.1 _ hmem,
    H.2.2.2 (by intro c t h; injection h with h1 h2; rw [← h1]; decide)
      _ hmem⟩

end ChainSpark
